import Mathlib

/-!
Verification development for the phylo-tools repository.

Part 1 embeds `findtrunk.py`: a rooted tree in the dendropy data model
(every node, the root included, owns exactly one incoming edge), the two
level-order labelling loops, the per-leaf backward traversal that counts
how many leaf-to-root walks cross each edge, and the final `trunk`
edge annotations.

Part 2 embeds `trunktraitevolution.py`: the preorder trait walk that,
for each parent node not yet marked visited, scans its children, and for
every truthy-labelled child whose `trunk` annotation exceeds the
threshold records a transition row, accumulates the permanence table,
counts switches, re-seeds the running parent context with the child's
values and marks the child visited.

Nodes are identified by their path from the root (the list of child
indices), which plays the role of dendropy's object identity.
-/

/-- Tree node of `findtrunk.py`. `label` is the mutable node-label slot,
`elabel` the label slot of the node's incoming edge (dendropy gives every
node, the root included, exactly one edge whose head is that node),
`blen` the branch length of that incoming edge, `children` the ordered
child list. -/
inductive FTree where
  | mk (label : Nat) (elabel : Nat) (blen : ℚ) (children : List FTree)

/-- Node-label slot. -/
def FTree.label : FTree → Nat
  | .mk l _ _ _ => l

/-- Edge-label slot of the node's incoming edge. -/
def FTree.elabel : FTree → Nat
  | .mk _ e _ _ => e

/-- Branch length of the node's incoming edge (`edge.length`). -/
def FTree.blen : FTree → ℚ
  | .mk _ _ b _ => b

/-- Ordered list of child nodes (`node.child_nodes()`). -/
def FTree.children : FTree → List FTree
  | .mk _ _ _ c => c

mutual
/-- Number of nodes of a tree. -/
def FTree.tsize : FTree → Nat
  | .mk _ _ _ c => 1 + FTree.lsize c
/-- Number of nodes of a forest. -/
def FTree.lsize : List FTree → Nat
  | [] => 0
  | t :: ts => FTree.tsize t + FTree.lsize ts
end

/-- The subtree rooted at the node reached from `t` by following the
child indices in `q`; `none` when no such node exists. -/
def subtreeAt : FTree → List Nat → Option FTree
  | t, [] => some t
  | t, i :: p =>
    match t.children[i]? with
    | some c => subtreeAt c p
    | none => none

/-- Branch length of the incoming edge of the node at path `q` (0 when the
path is invalid). -/
def blenAt (t : FTree) (q : List Nat) : ℚ :=
  ((subtreeAt t q).map FTree.blen).getD 0

/-- Number of children of the node at path `q` (0 when the path is
invalid). -/
def arityAt (t : FTree) (q : List Nat) : Nat :=
  ((subtreeAt t q).map (fun s => s.children.length)).getD 0

/-- The `root_distance` attribute set by dendropy's
`calc_node_root_distances` (invoked through `tree.max_distance_from_root()`
in `findtrunk.main`): the root gets `0.0`, every other node gets its
branch length plus the parent's root distance, i.e. the sum of the branch
lengths along the path from the root. -/
def rootDist : FTree → List Nat → ℚ
  | _, [] => 0
  | t, i :: p =>
    match t.children[i]? with
    | some c => c.blen + rootDist c p
    | none => 0

/-- Queue entries for the breadth-first traversal: each child of the node
at path `p` paired with its own path. -/
def childEntries (p : List Nat) (i : Nat) : List FTree → List (List Nat × FTree)
  | [] => []
  | c :: cs => (p ++ [i], c) :: childEntries p (i + 1) cs

/-- Total node count of the trees in a breadth-first queue (termination
measure for `bfsAux`). -/
def qsize (q : List (List Nat × FTree)) : Nat :=
  (q.map (fun e => FTree.tsize e.2)).sum

/-- Breadth-first traversal loop of dendropy's `levelorder_node_iter`:
pop the front entry, emit its path, push its children at the back. -/
def bfsAux : List (List Nat × FTree) → List (List Nat)
  | [] => []
  | (p, t) :: rest => p :: bfsAux (rest ++ childEntries p 0 t.children)
termination_by q => qsize q
decreasing_by
  cases t with
  | mk l e b c =>
    have hce : ∀ (i : Nat) (cs : List FTree),
        qsize (childEntries p i cs) = FTree.lsize cs := by
      intro i cs
      induction cs generalizing i with
      | nil => simp [qsize, childEntries, FTree.lsize]
      | cons x xs ih =>
        simp only [childEntries, qsize, List.map_cons, List.sum_cons]
        rw [show (List.map (fun e => FTree.tsize e.2)
            (childEntries p (i + 1) xs)).sum = qsize (childEntries p (i + 1) xs) from rfl,
          ih (i + 1), FTree.lsize]
    have hap : qsize (rest ++ childEntries p 0 c) = qsize rest + FTree.lsize c := by
      simp [qsize, hce 0 c]
      rw [show (List.map (fun e => FTree.tsize e.2) (childEntries p 0 c)).sum
          = qsize (childEntries p 0 c) from rfl, hce 0 c]
    simp only [FTree.children] at *
    rw [hap]
    simp only [qsize, List.map_cons, List.sum_cons, FTree.tsize]
    omega

/-- Paths of all nodes of `t` in level order (the order in which
`levelorder_node_iter`, and hence also `levelorder_edge_iter`, visits the
nodes/edges). -/
def bfsPaths (t : FTree) : List (List Nat) :=
  bfsAux [([], t)]

/-- The integer identifier that the level-order labelling loops of
`findtrunk.main` assign to the node at path `q` and to its incoming edge:
its position in the level-order sequence. -/
def labelOf (t : FTree) (q : List Nat) : Nat :=
  (bfsPaths t).indexOf q

mutual
/-- Paths of all leaves below the node at path `p`, in left-to-right
order (the order of dendropy's `leaf_node_iter`; the trunk accumulation
is order independent). -/
def leafPathsAux (p : List Nat) : FTree → List (List Nat)
  | .mk _ _ _ [] => [p]
  | .mk _ _ _ (c :: cs) => leafPathsList p 0 (c :: cs)
/-- Leaf paths of a forest of children of the node at path `p`. -/
def leafPathsList (p : List Nat) (i : Nat) : List FTree → List (List Nat)
  | [] => []
  | c :: cs => leafPathsAux (p ++ [i]) c ++ leafPathsList p (i + 1) cs
end

/-- Paths of all leaves of `t`. -/
def leafPaths (t : FTree) : List (List Nat) :=
  leafPathsAux [] t

/-- The chain of ancestors a backward traversal starting at the parent of
the leaf at path `L` visits, parent first, root (`take 0`) last. -/
def upChain (L : List Nat) : List (List Nat) :=
  (List.range L.length).reverse.map (fun k => L.take k)

/-- The `while backwardnode.root_distance > 0` loop of `findtrunk.main`
for one leaf: walk up from the leaf's parent while the current node's
root distance is positive, emitting `(backwardnode.edge.label, 1)` pairs. -/
def climb (t : FTree) (L : List Nat) : List (Nat × Nat) :=
  ((upChain L).takeWhile (fun q => decide (0 < rootDist t q))).map
    (fun q => (labelOf t q, 1))

/-- The `edgelist` accumulated over all leaves. -/
def edgelist (t : FTree) : List (Nat × Nat) :=
  (leafPaths t).flatMap (climb t)

/-- The `edgedict` as initialised by the edge-labelling loop: one key per
edge, in level order (so the keys are `0, …, M-1`), each with value 0.
The root's edge is an edge of the tree for dendropy, so its label is a
key too. -/
def edgedictInit (t : FTree) : List (Nat × Nat) :=
  (List.range (bfsPaths t).length).map (fun i => (i, 0))

/-- `edgedict[k] += v` (the key is always present when the program runs,
since every emitted label is the label of an existing edge). -/
def edgedictAdd (d : List (Nat × Nat)) (k : Nat) (v : Nat) : List (Nat × Nat) :=
  d.map (fun kv => if kv.1 = k then (kv.1, kv.2 + v) else kv)

/-- The final `edgedict` after the `for pair in edgelist` accumulation
loop. -/
def edgedict (t : FTree) : List (Nat × Nat) :=
  (edgelist t).foldl (fun d pr => edgedictAdd d pr.1 pr.2) (edgedictInit t)

/-- Total increment a pair list contributes to key `k` (the pairs of
`edgelist` all carry increment 1). -/
def sumVals (k : Nat) (prs : List (Nat × Nat)) : Nat :=
  ((prs.filter (fun pr => pr.1 = k)).map (fun pr => pr.2)).sum

/-- Sum of all values stored in a dictionary. -/
def valsSum (d : List (Nat × Nat)) : Nat :=
  (d.map (fun kv => kv.2)).sum

/-- Number of entries of the dictionary carrying key `k`. -/
def keyCount (d : List (Nat × Nat)) (k : Nat) : Nat :=
  d.countP (fun kv => decide (kv.1 = k))

/-- The value stored in the `trunk` annotation of the edge whose head is
the node at path `q` (the annotation loop writes
`edgedict[edge.label]` on every edge). -/
def annotTrunk (t : FTree) (q : List Nat) : Option Nat :=
  (edgedict t).lookup (labelOf t q)

/-- Sum of all trunk counts held in `edgedict`. -/
def sumTrunk (t : FTree) : Nat :=
  ((edgedict t).map (fun kv => kv.2)).sum

/-- Sum over all leaves of the edge-count distance from the leaf's parent
to the root (the number of edges on that path). -/
def sumParentDepth (t : FTree) : Nat :=
  ((leafPaths t).map (fun L => L.length - 1)).sum

mutual
/-- Every non-root node of the tree has a strictly positive branch
length on its incoming edge (the root's own edge length is exempt, as
dendropy pins the root's `root_distance` to 0). -/
def allPosT : FTree → Bool
  | .mk _ _ _ c => allPosL c
/-- Forest version of `allPosT`. -/
def allPosL : List FTree → Bool
  | [] => true
  | c :: cs => (decide (0 < c.blen) && allPosT c) && allPosL cs
end

/-- Spec-side definition, following the specification's words for claim
C1: the number of leaves whose leaf-to-root path includes the edge whose
head node sits at path `q` — a leaf's path to the root crosses that edge
exactly when `q` is a prefix of the leaf's path (the leaf itself included
when the edge is its own incoming edge). -/
def leavesWithEdgeOnPath (t : FTree) (q : List Nat) : Nat :=
  (leafPaths t).countP (fun L => decide (q <+: L))

/-- Number of leaves strictly below the node at path `q`: the leaves
whose backward walk to the root traverses the edge into `q`. -/
def leavesStrictlyBelow (t : FTree) (q : List Nat) : Nat :=
  (leafPaths t).countP (fun L => decide (q <+: L ∧ q ≠ L))

mutual
/-- The node-labelling loop `for node in tree.levelorder_node_iter():
node.label = i`: rewrite every node label according to `f` applied to the
node's path. -/
def relabelNodesAux (f : List Nat → Nat) (p : List Nat) : FTree → FTree
  | .mk _ e b c => .mk (f p) e b (relabelNodesList f p 0 c)
/-- Forest version of `relabelNodesAux`. -/
def relabelNodesList (f : List Nat → Nat) (p : List Nat) (i : Nat) : List FTree → List FTree
  | [] => []
  | c :: cs => relabelNodesAux f (p ++ [i]) c :: relabelNodesList f p (i + 1) cs
end

mutual
/-- The edge-labelling loop `for edge in tree.levelorder_edge_iter():
edge.label = i`: rewrite every edge label according to `f` applied to the
head node's path. -/
def relabelEdgesAux (f : List Nat → Nat) (p : List Nat) : FTree → FTree
  | .mk l _ b c => .mk l (f p) b (relabelEdgesList f p 0 c)
/-- Forest version of `relabelEdgesAux`. -/
def relabelEdgesList (f : List Nat → Nat) (p : List Nat) (i : Nat) : List FTree → List FTree
  | [] => []
  | c :: cs => relabelEdgesAux f (p ++ [i]) c :: relabelEdgesList f p (i + 1) cs
end

/-- The node-labelling pass: node at level-order position `i` gets label
`i`. -/
def assignNodeIds (t : FTree) : FTree :=
  relabelNodesAux (labelOf t) [] t

/-- The edge-labelling pass: edge at level-order position `i` gets label
`i`. -/
def assignEdgeIds (t : FTree) : FTree :=
  relabelEdgesAux (labelOf t) [] t

/-- The full identifier-assignment pass of `findtrunk.main`: nodes first,
then edges. -/
def assignIds (t : FTree) : FTree :=
  assignEdgeIds (assignNodeIds t)

/-- Leaf constructor shorthand for the concrete example trees. -/
def leafF (b : ℚ) : FTree :=
  .mk 0 0 b []

/-- The 4-leaf balanced tree `((A:1,B:1):1,(C:1,D:1):1);` of the
specification's scenario. -/
def tBal4 : FTree :=
  .mk 0 0 0 [.mk 0 0 1 [leafF 1, leafF 1], .mk 0 0 1 [leafF 1, leafF 1]]

/-- The two-leaf tree `(A:1,B:1);` (root with two leaf children). -/
def tCherry : FTree :=
  .mk 0 0 0 [leafF 1, leafF 1]

/-- A tree with a zero-length internal edge: `((A:1,B:1):0,C:1);`. -/
def tZero : FTree :=
  .mk 0 0 0 [.mk 0 0 0 [leafF 1, leafF 1], leafF 1]

/-- Tree node of `trunktraitevolution.py`. `label` is the node label as
far as Python truthiness is concerned (`none` models an unlabelled node),
`trait` the value of the configured feature annotation, `height` the
`height` annotation, `trunk` the `trunk` annotation, `blen` the branch
length of the incoming edge; a `none` annotation models an absent key. -/
inductive WTree where
  | mk (label : Option Int) (trait : Option String) (height : Option ℚ)
       (trunk : Option Int) (blen : ℚ) (children : List WTree)

/-- Node label slot. -/
def WTree.label : WTree → Option Int
  | .mk l _ _ _ _ _ => l

/-- Feature annotation of the node (`annotations[args.feature_annotation]`). -/
def WTree.trait : WTree → Option String
  | .mk _ v _ _ _ _ => v

/-- Height annotation of the node (`annotations['height']`). -/
def WTree.height : WTree → Option ℚ
  | .mk _ _ h _ _ _ => h

/-- Trunk annotation read on the child node (`annotations['trunk']`). -/
def WTree.trunk : WTree → Option Int
  | .mk _ _ _ k _ _ => k

/-- Branch length of the node's incoming edge (`child.edge.length`). -/
def WTree.blen : WTree → ℚ
  | .mk _ _ _ _ b _ => b

/-- Ordered child list. -/
def WTree.children : WTree → List WTree
  | .mk _ _ _ _ _ c => c

mutual
/-- Dendropy's `preorder_node_iter`: the node itself, then its children's
subtrees depth first, left to right; each node is paired with its path. -/
def preAux (p : List Nat) : WTree → List (List Nat × WTree)
  | .mk l v h k b c => (p, .mk l v h k b c) :: preList p 0 c
/-- Forest version of `preAux`. -/
def preList (p : List Nat) (i : Nat) : List WTree → List (List Nat × WTree)
  | [] => []
  | c :: cs => preAux (p ++ [i]) c ++ preList p (i + 1) cs
end

/-- Python truthiness of the node-label slot used by `if child.label:`
(`None` and `0` are falsy). -/
def truthy : Option Int → Bool
  | none => false
  | some n => n != 0

/-- The running parent context of the walk: `parent_annotation`,
`parent_id`, `parent_height`. -/
structure WCtx where
  pa : String
  pid : Option Int
  ph : ℚ
deriving DecidableEq

/-- One row of the `_switches.csv` transition log. -/
structure WRow where
  fromId : Option Int
  toId : Option Int
  fAge : ℚ
  tAge : ℚ
  dur : ℚ
  vfrom : String
  vto : String
  cflag : Nat
deriving DecidableEq

/-- The `feature_permanence` dict of dicts, with Python insertion-order
semantics: an assoc list of outer keys, each with an assoc list of inner
keys. -/
abbrev Perm := List (String × List (String × ℚ))

/-- `inner[b] = x` when `b` is absent, `inner[b] += x` otherwise. -/
def innerAdd (inner : List (String × ℚ)) (b : String) (x : ℚ) : List (String × ℚ) :=
  if inner.any (fun kv => decide (kv.1 = b)) then
    inner.map (fun kv => if kv.1 = b then (kv.1, kv.2 + x) else kv)
  else inner ++ [(b, x)]

/-- The permanence update of `trunktraitevolution.main`: create the empty
inner dict for `a` when absent, then add `x` under inner key `b`. -/
def permAdd (m : Perm) (a b : String) (x : ℚ) : Perm :=
  let m1 := if m.any (fun kv => decide (kv.1 = a)) then m else m ++ [(a, [])]
  m1.map (fun kv => if kv.1 = a then (kv.1, innerAdd kv.2 b x) else kv)

/-- `feature_permanence[a][b]` as an optional lookup. -/
def lookup2 (m : Perm) (a b : String) : Option ℚ :=
  (m.lookup a).bind (fun inner => inner.lookup b)

/-- The fatal conditions of the walk: a required annotation missing on a
node encountered during the traversal (a Python `KeyError`). -/
inductive WErr where
  | missingTrait
  | missingHeight
  | missingTrunk
deriving DecidableEq

/-- Mutable state of the walk: the transition-log rows written to
`_switches.csv` so far, the switch counter `sc`, the permanence table and
the set of nodes carrying a `visited` annotation. -/
structure WState where
  rows : List WRow
  sc : Nat
  perm : Perm
  visited : List (List Nat)
deriving DecidableEq

/-- Result of processing part of the child loop: either the updated
context and state, or the fatal error together with the state at the
moment it was raised (rows already written stay written). -/
inductive CRes where
  | ok (ctx : WCtx) (s : WState)
  | fail (e : WErr) (s : WState)
deriving DecidableEq

/-- Result of the node loop. -/
inductive NRes where
  | ok (s : WState)
  | fail (e : WErr) (s : WState)
deriving DecidableEq

/-- The body of `for child in node.child_nodes()` for one child at path
`p`: skip falsy-labelled children; read the `trunk` annotation; when it
exceeds the threshold, read the child's trait, update the permanence
table, compute the switch flag and counter, read the child's height,
write the transition row, re-seed the parent context with the child's
values and mark the child visited — in exactly the order of the source,
so an error raised late (missing height) leaves the earlier updates in
place. -/
def processChild (thr : Int) (ctx : WCtx) (s : WState) (p : List Nat) (c : WTree) : CRes :=
  if truthy c.label then
    match c.trunk with
    | none => .fail .missingTrunk s
    | some tc =>
      if thr < tc then
        match c.trait with
        | none => .fail .missingTrait s
        | some ca =>
          let perm2 := permAdd s.perm ctx.pa ca c.blen
          let cf : Nat := if ctx.pa ≠ ca then 1 else 0
          let sc2 := s.sc + cf
          match c.height with
          | none => .fail .missingHeight { s with perm := perm2, sc := sc2 }
          | some ch =>
            .ok ⟨ca, c.label, ch⟩
              { s with
                perm := perm2
                sc := sc2
                rows := s.rows ++ [⟨ctx.pid, c.label, ctx.ph, ch, c.blen, ctx.pa, ca, cf⟩]
                visited := s.visited ++ [p] }
      else .ok ctx s
  else .ok ctx s

/-- The full child loop, threading the re-seeded context through the
siblings and stopping at the first fatal error. -/
def processChildren (thr : Int) (ctx : WCtx) (s : WState) (p : List Nat) (i : Nat) :
    List WTree → CRes
  | [] => .ok ctx s
  | c :: cs =>
    match processChild thr ctx s (p ++ [i]) c with
    | .fail e s2 => .fail e s2
    | .ok ctx2 s2 => processChildren thr ctx2 s2 p (i + 1) cs

/-- The body of `for node in tree.preorder_node_iter()`: nodes already
carrying a `visited` annotation are skipped outright; otherwise the
node's trait and height are read (fatal when absent) and the child loop
runs. -/
def stepNode (thr : Int) (s : WState) (p : List Nat) (t : WTree) : NRes :=
  if p ∈ s.visited then .ok s
  else
    match t.trait with
    | none => .fail .missingTrait s
    | some pa =>
      match t.height with
      | none => .fail .missingHeight s
      | some ph =>
        match processChildren thr ⟨pa, t.label, ph⟩ s p 0 t.children with
        | .ok _ s2 => .ok s2
        | .fail e s2 => .fail e s2

/-- The preorder node loop, stopping at the first fatal error. -/
def walkNodes (thr : Int) (s : WState) : List (List Nat × WTree) → NRes
  | [] => .ok s
  | (p, t) :: rest =>
    match stepNode thr s p t with
    | .fail e s2 => .fail e s2
    | .ok s2 => walkNodes thr s2 rest

/-- Initial walk state: empty log, zero switches, empty permanence table,
no `visited` annotations. -/
def initWState : WState :=
  ⟨[], 0, [], []⟩

/-- The whole trait walk over the tree. -/
def runWalk (thr : Int) (t : WTree) : NRes :=
  walkNodes thr initWState (preAux [] t)

/-- The rows present in `_switches.csv` when the program stops: the rows
written so far, whether the walk completed or died on a fatal error
mid-loop (the file is opened and written incrementally). -/
def switchRows (thr : Int) (t : WTree) : List WRow :=
  match runWalk thr t with
  | .ok s => s.rows
  | .fail _ s => s.rows

/-- The `_summary.csv` writer: one row per same-valued pair of the
permanence table. -/
def mkSummary (m : Perm) : List (String × String × ℚ) :=
  m.flatMap (fun kv => kv.2.filterMap
    (fun bv => if kv.1 == bv.1 then some (kv.1, bv.1, bv.2) else none))

/-- The `_summary.csv` contents: produced only when the walk completed;
a fatal error propagates out of the first `with` block and the summary
file is never opened. -/
def summaryOut (thr : Int) (t : WTree) : Option (List (String × String × ℚ)) :=
  match runWalk thr t with
  | .ok s => some (mkSummary s.perm)
  | .fail _ _ => none

/-- Whether the walk died on a fatal error. -/
def isFail : NRes → Bool
  | .ok _ => false
  | .fail _ _ => true

/-- Walker leaf shorthand. -/
def leafW (lbl : Option Int) (v : Option String) (h : Option ℚ) (k : Option Int) (b : ℚ) : WTree :=
  .mk lbl v h k b []

/-- Concrete tree on which the walk dies after having written one row:
the first child is processed (one transition row), the second child is
above threshold but lacks the trait annotation. -/
def tFailMid : WTree :=
  .mk (some 0) (some "X") (some 10) none 0
    [leafW (some 1) (some "X") (some 9) (some 5) 1,
     leafW (some 2) none (some 8) (some 5) 1]

/-- State at the moment the walk over `tFailMid` raises its fatal error:
one transition row already written. -/
def sFailMid : WState :=
  ⟨[⟨some 0, some 1, 10, 9, 1, "X", "X", 0⟩], 0, [("X", [("X", 1)])], [[0]]⟩

/-- First child of the completed-walk example: trait `Y`. -/
def cW1 : WTree :=
  leafW (some 1) (some "Y") (some 9) (some 5) 2

/-- Second child of the completed-walk example: trait `Z`. -/
def cW2 : WTree :=
  leafW (some 2) (some "Z") (some 8) (some 7) 3

/-- Concrete tree on which the walk completes: root with trait `X` and
two above-threshold children with traits `Y` and `Z`. -/
def tOkW : WTree :=
  .mk (some 0) (some "X") (some 10) none 0 [cW1, cW2]

/-- Final state of the completed walk over `tOkW`. -/
def sOkW : WState :=
  ⟨[⟨some 0, some 1, 10, 9, 2, "X", "Y", 1⟩,
    ⟨some 1, some 2, 9, 8, 3, "Y", "Z", 1⟩],
   2,
   [("X", [("Y", 2)]), ("Y", [("Z", 3)])],
   [[0], [1]]⟩

/-- A state in which the node at path `[0]` is already marked visited. -/
def sVisited0 : WState :=
  ⟨[], 0, [], [[0]]⟩

/-- A child whose label slot is `None` (falsy) but which carries a large
trunk annotation. -/
def cFalsy : WTree :=
  leafW none (some "Q") (some 4) (some 99) 1

/-- The re-seeding discipline of the child loop, stated as a relation
between the incoming parent context, the rows the loop emits and the
context it leaves behind: each emitted row compares against the trait
value of the current context, and the context is then replaced by that
row's child values (`VTO`, `TO-ID`, `T-AGE`). -/
def chained (ctx : WCtx) : List WRow → WCtx → Prop
  | [], ctx2 => ctx2 = ctx
  | r :: rest, ctx2 => r.vfrom = ctx.pa ∧ chained ⟨r.vto, r.toId, r.tAge⟩ rest ctx2

/-- The bookkeeping invariant of the walk: the switch counter equals the
number of transition rows with switch flag 1, and for every trait value
`v` the `(v, v)` entry of the permanence table holds the summed duration
of the rows with `VFROM = VTO = v`. -/
def walkInv (s : WState) : Prop :=
  s.sc = s.rows.countP (fun r => r.cflag == 1) ∧
  ∀ v, (lookup2 s.perm v v).getD 0
      = ((s.rows.filter (fun r => r.vfrom == v && r.vto == v)).map (fun r => r.dur)).sum

-- sanity checks that the walker evaluates in the kernel
example : (switchRows 0 tFailMid).length = 1 := by decide
example : isFail (runWalk 0 tFailMid) = true := by decide
example : summaryOut 0 tFailMid = none := by decide
example : runWalk 0 tFailMid = .fail .missingTrait sFailMid := by decide
example : runWalk 0 tOkW = .ok sOkW := by decide

-- sanity check that the level-order traversal evaluates as expected
example : bfsPaths tCherry = [[], [0], [1]] := by
  simp [bfsPaths, bfsAux, tCherry, leafF, childEntries, FTree.children]


/-! ### Association-list lemmas for the permanence table -/

theorem lookup_cons_eq {α β : Type} [BEq α] [LawfulBEq α] [DecidableEq α]
    (k a : α) (b : β) (es : List (α × β)) :
    ((k, b) :: es).lookup a = if a = k then some b else es.lookup a := by
  by_cases h : a = k
  · subst h; simp [List.lookup_cons]
  · have hb : (a == k) = false := by simp [h]
    simp [List.lookup_cons, hb, h]

theorem lookup_map_addAt {α β : Type} [BEq α] [LawfulBEq α] [DecidableEq α]
    (m : List (α × β)) (a v : α) (f : β → β) :
    (m.map (fun kv => if kv.1 = a then (kv.1, f kv.2) else kv)).lookup v
      = if v = a then (m.lookup v).map f else m.lookup v := by
  induction m with
  | nil => simp
  | cons kv rest ih =>
    obtain ⟨k, b⟩ := kv
    simp only [List.map_cons]
    by_cases h1 : k = a
    · subst h1
      by_cases h2 : v = k
      · subst h2; simp [lookup_cons_eq]
      · simp [lookup_cons_eq, h2, ih]
    · by_cases h2 : v = k
      · subst h2; simp [lookup_cons_eq, h1]
      · simp [lookup_cons_eq, h1, h2, ih]

theorem any_key_eq_lookup_isSome {β : Type} (m : List (String × β)) (a : String) :
    m.any (fun kv => decide (kv.1 = a)) = (m.lookup a).isSome := by
  induction m with
  | nil => simp
  | cons kv rest ih =>
    obtain ⟨k, b⟩ := kv
    by_cases h : a = k
    · subst h; simp [lookup_cons_eq]
    · have hk : ¬ k = a := fun e => h e.symm
      simp [lookup_cons_eq, h, hk, ih]

theorem innerAdd_lookup (inner : List (String × ℚ)) (b w : String) (x : ℚ) :
    (innerAdd inner b x).lookup w
      = if w = b then some ((inner.lookup b).getD 0 + x) else inner.lookup w := by
  unfold innerAdd
  cases hany : inner.any (fun kv => decide (kv.1 = b)) with
  | false =>
    have hnone : inner.lookup b = none := by
      rw [any_key_eq_lookup_isSome] at hany
      exact Option.not_isSome_iff_eq_none.mp (by simp [hany])
    rw [if_neg (by simp [hany])]
    by_cases hw : w = b
    · subst hw
      simp [List.lookup_append, hnone, lookup_cons_eq]
    · simp [List.lookup_append, lookup_cons_eq, hw]
  | true =>
    rw [if_pos (by simp [hany])]
    have hmap := lookup_map_addAt inner b w (fun y => y + x)
    simp only at hmap
    rw [hmap]
    by_cases hw : w = b
    · subst hw
      have hsome : (inner.lookup w).isSome := by
        rw [← any_key_eq_lookup_isSome, hany]
      obtain ⟨y, hy⟩ := Option.isSome_iff_exists.mp hsome
      simp [hy]
    · simp [hw]

theorem permAdd_lookup2 (m : Perm) (a b v w : String) (x : ℚ) :
    lookup2 (permAdd m a b x) v w
      = if v = a ∧ w = b then some ((lookup2 m a b).getD 0 + x) else lookup2 m v w := by
  simp only [permAdd, lookup2]
  have hm1 : (if m.any (fun kv => decide (kv.1 = a)) then m else m ++ [(a, [])]).lookup v
      = if v = a ∧ (m.lookup a).isSome = false then some [] else m.lookup v := by
    cases hany : m.any (fun kv => decide (kv.1 = a)) with
    | false =>
      have hnone : m.lookup a = none := by
        rw [any_key_eq_lookup_isSome] at hany
        exact Option.not_isSome_iff_eq_none.mp (by simp [hany])
      rw [if_neg (by simp [hany])]
      by_cases hv : v = a
      · subst hv; simp [List.lookup_append, hnone, lookup_cons_eq]
      · simp [List.lookup_append, lookup_cons_eq, hv, hnone]
    | true =>
      have hsome : (m.lookup a).isSome := by
        rw [← any_key_eq_lookup_isSome, hany]
      rw [if_pos (by simp [hany])]
      simp [hsome]
  have hmap := lookup_map_addAt
    (if m.any (fun kv => decide (kv.1 = a)) then m else m ++ [(a, [])]) a v
    (fun inn => innerAdd inn b x)
  simp only at hmap
  rw [hmap, hm1]
  by_cases hv : v = a
  · subst hv
    rw [if_pos rfl]
    cases hma : m.lookup v with
    | none =>
      rw [if_pos (by simp [hma])]
      simp only [Option.map_some', Option.some_bind]
      rw [innerAdd_lookup]
      by_cases hw : w = b
      · subst hw
        rw [if_pos rfl, if_pos ⟨trivial, rfl⟩]
        simp [hma]
      · rw [if_neg hw, if_neg (by simp [hw])]
        simp [hma]
    | some inner =>
      rw [if_neg (by simp [hma])]
      simp only [hma, Option.map_some', Option.some_bind]
      rw [innerAdd_lookup]
      by_cases hw : w = b
      · subst hw
        rw [if_pos rfl, if_pos ⟨trivial, rfl⟩]
      · rw [if_neg hw, if_neg (by simp [hw])]
  · rw [if_neg (by simp [hv]), if_neg (by simp [hv]), if_neg (by simp [hv])]

/-! ### Walk invariant: switch counter and permanence bookkeeping -/

theorem walkInv_initWState : walkInv initWState := by
  constructor
  · rfl
  · intro v; rfl

theorem walkInv_processChild {thr : Int} {ctx : WCtx} {s : WState} {p : List Nat}
    {c : WTree} {ctx2 : WCtx} {s2 : WState}
    (hInv : walkInv s) (h : processChild thr ctx s p c = .ok ctx2 s2) : walkInv s2 := by
  simp only [processChild] at h
  cases hT : truthy c.label
  · rw [hT] at h
    simp only [Bool.false_eq_true, if_false] at h
    rw [CRes.ok.injEq] at h
    obtain ⟨h1, h2⟩ := h
    subst h2
    exact hInv
  · rw [if_pos hT] at h
    cases hK : c.trunk with
    | none => simp only [hK] at h; simp at h
    | some tc =>
      simp only [hK] at h
      by_cases hth : thr < tc
      · rw [if_pos hth] at h
        cases hA : c.trait with
        | none => simp only [hA] at h; simp at h
        | some ca =>
          simp only [hA] at h
          cases hH : c.height with
          | none => simp only [hH] at h; simp at h
          | some ch =>
            simp only [hH] at h
            rw [CRes.ok.injEq] at h
            obtain ⟨hctx, hs⟩ := h
            subst hs
            constructor
            · simp only [List.countP_append, List.countP_cons, List.countP_nil]
              by_cases hpa : ctx.pa = ca
              · simp [hpa, hInv.1]
              · simp [hpa, hInv.1]
            · intro v
              simp only
              rw [permAdd_lookup2]
              by_cases h1 : ctx.pa = v
              · by_cases h2 : ca = v
                · rw [if_pos ⟨h1.symm, h2.symm⟩]
                  simp only [Option.getD_some]
                  rw [h1, h2, hInv.2 v]
                  have hpred : ((fun r : WRow => r.vfrom == v && r.vto == v)
                      ⟨ctx.pid, c.label, ctx.ph, ch, c.blen, ctx.pa, ca,
                        if ctx.pa ≠ ca then 1 else 0⟩) = true := by
                    simp [h1, h2]
                  simp [List.filter_append, List.filter_cons, List.filter_nil, h1, h2]
                · rw [if_neg (fun hx => h2 hx.2.symm)]
                  rw [hInv.2 v]
                  have h2b : (ca == v) = false := by simp [h2]
                  simp [List.filter_append, List.filter_cons, List.filter_nil, h2b]
              · rw [if_neg (fun hx => h1 hx.1.symm)]
                rw [hInv.2 v]
                have h1b : (ctx.pa == v) = false := by simp [h1]
                simp [List.filter_append, List.filter_cons, List.filter_nil, h1b]
      · rw [if_neg hth] at h
        rw [CRes.ok.injEq] at h
        obtain ⟨h1, h2⟩ := h
        subst h2
        exact hInv

theorem walkInv_processChildren {thr : Int} {p : List Nat} :
    ∀ (cs : List WTree) (ctx : WCtx) (s : WState) (i : Nat) (ctx2 : WCtx) (s2 : WState),
      walkInv s → processChildren thr ctx s p i cs = .ok ctx2 s2 → walkInv s2 := by
  intro cs
  induction cs with
  | nil =>
    intro ctx s i ctx2 s2 hInv h
    simp only [processChildren] at h
    obtain ⟨hctx, hs⟩ := CRes.ok.inj h
    subst hs
    exact hInv
  | cons c rest ih =>
    intro ctx s i ctx2 s2 hInv h
    simp only [processChildren] at h
    split at h
    · simp at h
    · exact ih _ _ _ _ _ (walkInv_processChild hInv (by assumption)) h

theorem walkInv_stepNode {thr : Int} {s : WState} {p : List Nat} {t : WTree} {s2 : WState}
    (hInv : walkInv s) (h : stepNode thr s p t = .ok s2) : walkInv s2 := by
  simp only [stepNode] at h
  split at h
  · obtain hs := NRes.ok.inj h
    subst hs
    exact hInv
  · split at h
    · simp at h
    · split at h
      · simp at h
      · split at h
        · obtain hs := NRes.ok.inj h
          subst hs
          exact walkInv_processChildren _ _ _ _ _ _ hInv (by assumption)
        · simp at h

theorem walkInv_walkNodes {thr : Int} :
    ∀ (l : List (List Nat × WTree)) (s : WState) (s2 : WState),
      walkInv s → walkNodes thr s l = .ok s2 → walkInv s2 := by
  intro l
  induction l with
  | nil =>
    intro s s2 hInv h
    simp only [walkNodes] at h
    obtain hs := NRes.ok.inj h
    subst hs
    exact hInv
  | cons e rest ih =>
    intro s s2 hInv h
    obtain ⟨p, t⟩ := e
    simp only [walkNodes] at h
    split at h
    · simp at h
    · exact ih _ _ (walkInv_stepNode hInv (by assumption)) h

/-! ### Re-seeding of the parent context through the child loop -/

theorem processChild_ok_cases {thr : Int} {ctx : WCtx} {s : WState} {p : List Nat}
    {c : WTree} {ctx2 : WCtx} {s2 : WState}
    (h : processChild thr ctx s p c = .ok ctx2 s2) :
    (ctx2 = ctx ∧ s2 = s) ∨
    ∃ r : WRow, s2.rows = s.rows ++ [r] ∧ r.vfrom = ctx.pa ∧ ctx2 = ⟨r.vto, r.toId, r.tAge⟩ := by
  simp only [processChild] at h
  cases hT : truthy c.label
  · rw [hT] at h
    simp only [Bool.false_eq_true, if_false] at h
    rw [CRes.ok.injEq] at h
    exact Or.inl ⟨h.1.symm, h.2.symm⟩
  · rw [if_pos hT] at h
    cases hK : c.trunk with
    | none => simp only [hK] at h; simp at h
    | some tc =>
      simp only [hK] at h
      by_cases hth : thr < tc
      · rw [if_pos hth] at h
        cases hA : c.trait with
        | none => simp only [hA] at h; simp at h
        | some ca =>
          simp only [hA] at h
          cases hH : c.height with
          | none => simp only [hH] at h; simp at h
          | some ch =>
            simp only [hH] at h
            rw [CRes.ok.injEq] at h
            obtain ⟨hctx, hs⟩ := h
            refine Or.inr ⟨⟨ctx.pid, c.label, ctx.ph, ch, c.blen, ctx.pa, ca,
              if ctx.pa ≠ ca then 1 else 0⟩, ?_, rfl, ?_⟩
            · rw [← hs]
            · rw [← hctx]
      · rw [if_neg hth] at h
        rw [CRes.ok.injEq] at h
        exact Or.inl ⟨h.1.symm, h.2.symm⟩

theorem chained_cons_of_ctx {r : WRow} {rest : List WRow} {ctx ctxm ctx2 : WCtx}
    (hr : r.vfrom = ctx.pa) (hm : ctxm = ⟨r.vto, r.toId, r.tAge⟩)
    (hrest : chained ctxm rest ctx2) : chained ctx (r :: rest) ctx2 := by
  subst hm
  exact ⟨hr, hrest⟩

theorem processChildren_chained {thr : Int} {p : List Nat} :
    ∀ (cs : List WTree) (ctx : WCtx) (s : WState) (i : Nat) (ctx2 : WCtx) (s2 : WState),
      processChildren thr ctx s p i cs = .ok ctx2 s2 →
      ∃ new, s2.rows = s.rows ++ new ∧ chained ctx new ctx2 := by
  intro cs
  induction cs with
  | nil =>
    intro ctx s i ctx2 s2 h
    simp only [processChildren] at h
    rw [CRes.ok.injEq] at h
    obtain ⟨h1, h2⟩ := h
    exact ⟨[], by simp [← h2], by simp [chained, ← h1]⟩
  | cons c rest ih =>
    intro ctx s i ctx2 s2 h
    simp only [processChildren] at h
    split at h
    · simp at h
    · rename_i ctxm sm heq
      obtain ⟨new2, hrows2, hch2⟩ := ih _ _ _ _ _ h
      rcases processChild_ok_cases heq with ⟨hc, hs⟩ | ⟨r, hr1, hr2, hr3⟩
      · subst hc; subst hs
        exact ⟨new2, hrows2, hch2⟩
      · refine ⟨r :: new2, ?_, chained_cons_of_ctx hr2 hr3 hch2⟩
        rw [hrows2, hr1, List.append_assoc, List.singleton_append]

theorem chained_head_vfrom {ctx ctx2 : WCtx} {r : WRow} {rest : List WRow}
    (h : chained ctx (r :: rest) ctx2) : r.vfrom = ctx.pa :=
  h.1

theorem chained_consecutive {ctx2 : WCtx} :
    ∀ (new : List WRow) (ctx : WCtx), chained ctx new ctx2 →
      ∀ (j : Nat) (h1 : j + 1 < new.length) (h2 : j < new.length),
        (new.get ⟨j + 1, h1⟩).vfrom = (new.get ⟨j, h2⟩).vto := by
  intro new
  induction new with
  | nil =>
    intro ctx hch j h1 h2
    simp at h2
  | cons r rest ih =>
    intro ctx hch j h1 h2
    obtain ⟨hr, hrest⟩ := hch
    cases j with
    | zero =>
      cases rest with
      | nil => simp at h1
      | cons r2 rr =>
        have := chained_head_vfrom hrest
        simpa using this
    | succ jj =>
      have h1r : jj + 1 < rest.length := by simpa using h1
      have h2r : jj < rest.length := by simpa using h2
      simpa using ih _ hrest jj h1r h2r

/-! ### Claim theorems for the trait walker -/

/-- C5: during the trait walk, after each above-threshold child is
processed the running parent context (trait value, id, height) is
replaced by that child's values, so when one parent has several
above-threshold children each subsequent child is compared against the
immediately preceding processed child's trait value rather than the
original parent's: the rows emitted by one child loop are `chained` —
the first row compares against the incoming context, every following row
compares against the values of the row before it, and the loop leaves
behind the context of the last processed child — and consecutively
emitted rows satisfy `VFROM(next) = VTO(previous)`. -/
theorem trunkWalk_reseeds_parent_context (thr : Int) (ctx : WCtx) (s : WState)
    (p : List Nat) (i : Nat) (cs : List WTree) (ctx2 : WCtx) (s2 : WState)
    (h : processChildren thr ctx s p i cs = .ok ctx2 s2) :
    ∃ new, s2.rows = s.rows ++ new ∧ chained ctx new ctx2 ∧
      ∀ (j : Nat) (h1 : j + 1 < new.length) (h2 : j < new.length),
        (new.get ⟨j + 1, h1⟩).vfrom = (new.get ⟨j, h2⟩).vto := by
  obtain ⟨new, hrows, hch⟩ := processChildren_chained cs ctx s i ctx2 s2 h
  exact ⟨new, hrows, hch, chained_consecutive new ctx hch⟩

/-- Witness for C5: the child loop of the completed example walk, with
two above-threshold children, satisfies the re-seeding property. -/
theorem trunkWalk_reseeds_parent_context_witness :
    processChildren 0 ⟨"X", some 0, 10⟩ initWState [] 0 [cW1, cW2] = .ok ⟨"Z", some 2, 8⟩ sOkW ∧
    ∃ new, sOkW.rows = initWState.rows ++ new ∧ chained ⟨"X", some 0, 10⟩ new ⟨"Z", some 2, 8⟩ ∧
      ∀ (j : Nat) (h1 : j + 1 < new.length) (h2 : j < new.length),
        (new.get ⟨j + 1, h1⟩).vfrom = (new.get ⟨j, h2⟩).vto :=
  ⟨by decide,
   trunkWalk_reseeds_parent_context 0 ⟨"X", some 0, 10⟩ initWState [] 0 [cW1, cW2]
     ⟨"Z", some 2, 8⟩ sOkW (by decide)⟩

/-- C6: for every completed trait walk, the reported total switch count
equals the number of transition-log rows whose switch flag is 1, and for
every trait value `v` the permanence entry for the pair `(v, v)` — the
value the summary writer prints — equals the summed `DURATION` of all
transition-log rows with `VFROM = VTO = v`. -/
theorem trunkWalk_switch_count_and_permanence (thr : Int) (t : WTree) (s : WState)
    (h : runWalk thr t = .ok s) :
    s.sc = s.rows.countP (fun r => r.cflag == 1) ∧
    ∀ v, (lookup2 s.perm v v).getD 0
        = ((s.rows.filter (fun r => r.vfrom == v && r.vto == v)).map (fun r => r.dur)).sum := by
  exact walkInv_walkNodes _ _ _ walkInv_initWState h

/-- Witness for C6: the completed walk over `tOkW`. -/
theorem trunkWalk_switch_count_and_permanence_witness :
    runWalk 0 tOkW = .ok sOkW ∧ sOkW.sc = sOkW.rows.countP (fun r => r.cflag == 1) :=
  ⟨by decide, (trunkWalk_switch_count_and_permanence 0 tOkW sOkW (by decide)).1⟩

/-- C7 counterexample: on `tFailMid` the walk dies on a missing trait
annotation, yet the switch-log output is not empty — one transition row
was already written before the fatal condition hit, so the run does NOT
abort before producing output, contrary to the claim. -/
theorem trunkWalk_partial_log_cex :
    isFail (runWalk 0 tFailMid) = true ∧ switchRows 0 tFailMid ≠ [] := by decide

/-- C7 amended: if a fatal condition occurs during the trait walk, the
permanence summary file is never produced, but the switch-log file has
already been opened and contains the rows written before the error (at
minimum its header): the error carries the partial log. -/
theorem trunkWalk_fatal_stops_before_summary (thr : Int) (t : WTree) (e : WErr) (s : WState)
    (h : runWalk thr t = .fail e s) :
    summaryOut thr t = none ∧ switchRows thr t = s.rows := by
  simp [summaryOut, switchRows, h]

/-- Witness for the amended C7: the failing walk over `tFailMid`. -/
theorem trunkWalk_fatal_stops_before_summary_witness :
    runWalk 0 tFailMid = .fail .missingTrait sFailMid ∧
    summaryOut 0 tFailMid = none ∧ switchRows 0 tFailMid = sFailMid.rows :=
  ⟨by decide, trunkWalk_fatal_stops_before_summary 0 tFailMid .missingTrait sFailMid (by decide)⟩

/-- C8: a node that carries the `visited` mark when the preorder loop
reaches it is never processed as a parent: the walk over the remaining
nodes is literally the walk with that node deleted, so its child edges
are never evaluated and contribute no transition row, no permanence
duration, no switch count and no visited marks, regardless of their
trunk counts. -/
theorem trunkWalk_visited_node_skipped (thr : Int) (s : WState) (p : List Nat) (t : WTree)
    (rest : List (List Nat × WTree)) (h : p ∈ s.visited) :
    walkNodes thr s ((p, t) :: rest) = walkNodes thr s rest := by
  simp [walkNodes, stepNode, h]

/-- Witness for C8: a state in which `[0]` is marked visited skips the
node at `[0]` outright. -/
theorem trunkWalk_visited_node_skipped_witness :
    [0] ∈ sVisited0.visited ∧
    walkNodes 0 sVisited0 [([0], cW1)] = walkNodes 0 sVisited0 [] :=
  ⟨by decide, trunkWalk_visited_node_skipped 0 sVisited0 [0] cW1 [] (by decide)⟩

/-- C10: a child whose label slot is falsy is skipped entirely,
regardless of its trunk annotation: the child-loop body returns the
context and state unchanged — no transition row, no permanence duration,
no switch increment, no re-seeding, no visited mark. -/
theorem trunkWalk_falsy_label_skipped (thr : Int) (ctx : WCtx) (s : WState)
    (p : List Nat) (c : WTree) (h : truthy c.label = false) :
    processChild thr ctx s p c = .ok ctx s := by
  simp [processChild, h]

/-- Witness for C10: a `None`-labelled child with trunk annotation 99 is
skipped. -/
theorem trunkWalk_falsy_label_skipped_witness :
    truthy cFalsy.label = false ∧
    processChild 0 ⟨"X", some 0, 10⟩ initWState [0] cFalsy = .ok ⟨"X", some 0, 10⟩ initWState :=
  ⟨by decide, trunkWalk_falsy_label_skipped 0 ⟨"X", some 0, 10⟩ initWState [0] cFalsy (by decide)⟩

/-! ### Structural lemmas for the trunk counter -/

theorem FTree.recAux {P : FTree → Prop}
    (mk : ∀ l e b c, (∀ x ∈ c, P x) → P (.mk l e b c)) : ∀ t, P t
  | .mk l e b c => mk l e b c (fun x hx => FTree.recAux mk x)
termination_by t => sizeOf t
decreasing_by
  have h1 := List.sizeOf_lt_of_mem hx
  simp only [FTree.mk.sizeOf_spec]
  omega

theorem subtreeAt_cons_isSome {t : FTree} {j : Nat} {r : List Nat} :
    (subtreeAt t (j :: r)).isSome = true ↔
      ∃ c, t.children[j]? = some c ∧ (subtreeAt c r).isSome = true := by
  rw [subtreeAt]
  cases h : t.children[j]? with
  | none => simp
  | some c => simp [h]

theorem subtreeAt_append (q : List Nat) :
    ∀ (t : FTree) (r : List Nat),
      subtreeAt t (q ++ r) = (subtreeAt t q).bind (fun s => subtreeAt s r) := by
  induction q with
  | nil => intro t r; simp [subtreeAt]
  | cons j q' ih =>
    intro t r
    rw [List.cons_append, subtreeAt, subtreeAt]
    cases h : t.children[j]? with
    | none => simp
    | some c => simp [ih c r]

theorem subtreeAt_take {t : FTree} {L : List Nat} (h : (subtreeAt t L).isSome = true)
    (k : Nat) : (subtreeAt t (L.take k)).isSome = true := by
  have hsplit : L.take k ++ L.drop k = L := List.take_append_drop k L
  rw [← hsplit, subtreeAt_append] at h
  cases hq : subtreeAt t (L.take k) with
  | none => rw [hq] at h; simp at h
  | some s => simp

theorem childEntries_mem :
    ∀ (cs : List FTree) (p : List Nat) (i : Nat) (j : Nat) (c : FTree),
      cs[j]? = some c → (p ++ [i + j], c) ∈ childEntries p i cs := by
  intro cs
  induction cs with
  | nil => intro p i j c hj; simp at hj
  | cons c0 cs ih =>
    intro p i j c hj
    cases j with
    | zero =>
      simp only [List.getElem?_cons_zero, Option.some.injEq] at hj
      subst hj
      simp [childEntries]
    | succ jj =>
      simp only [List.getElem?_cons_succ] at hj
      have := ih p (i + 1) jj c hj
      rw [childEntries]
      rw [show i + (jj + 1) = i + 1 + jj from by omega]
      exact List.mem_cons_of_mem _ this

theorem bfsAux_mem_of_valid :
    ∀ (Q : List (List Nat × FTree)) (p : List Nat) (t : FTree), (p, t) ∈ Q →
      ∀ r, (subtreeAt t r).isSome = true → p ++ r ∈ bfsAux Q := by
  intro Q
  induction Q using bfsAux.induct with
  | case1 =>
    intro p t h
    simp at h
  | case2 p0 t0 rest ih =>
    intro p t hmem r hr
    rw [bfsAux]
    rcases List.mem_cons.mp hmem with heq | hmem2
    · obtain ⟨rfl, rfl⟩ : p = p0 ∧ t = t0 := by
        have h1 := congrArg Prod.fst heq
        have h2 := congrArg Prod.snd heq
        exact ⟨h1, h2⟩
      cases r with
      | nil => simp
      | cons j r2 =>
        obtain ⟨c, hc, hr2⟩ := subtreeAt_cons_isSome.mp hr
        have hcm : (p ++ [j], c) ∈ childEntries p 0 t.children := by
          have := childEntries_mem t.children p 0 j c hc
          simpa using this
        have := ih (p ++ [j]) c (List.mem_append_right _ hcm) r2 hr2
        rw [List.append_cons]
        exact List.mem_cons_of_mem _ this
    · exact List.mem_cons_of_mem _ (ih p t (List.mem_append_left _ hmem2) r hr)

theorem bfsPaths_mem_of_valid {t : FTree} {r : List Nat}
    (h : (subtreeAt t r).isSome = true) : r ∈ bfsPaths t := by
  have := bfsAux_mem_of_valid [([], t)] [] t (by simp) r h
  simpa using this

theorem indexOf_lt_len {α : Type} [BEq α] [LawfulBEq α] {a : α} :
    ∀ {l : List α}, a ∈ l → l.indexOf a < l.length := by
  intro l
  induction l with
  | nil => intro h; simp at h
  | cons x xs ih =>
    intro h
    rw [List.indexOf_cons]
    cases hbe : x == a with
    | true => simp
    | false =>
      have hm : a ∈ xs := by
        rcases List.mem_cons.mp h with rfl | hm
        · simp at hbe
        · exact hm
      simp only [cond_false, List.length_cons]
      exact Nat.succ_lt_succ (ih hm)

theorem indexOf_inj2 {α : Type} [BEq α] [LawfulBEq α] :
    ∀ {l : List α} {x y : α}, x ∈ l → y ∈ l → l.indexOf x = l.indexOf y → x = y := by
  intro l
  induction l with
  | nil => intro x y hx hy h; simp at hx
  | cons z zs ih =>
    intro x y hx hy h
    rw [List.indexOf_cons, List.indexOf_cons] at h
    cases h1 : z == x with
    | true =>
      cases h2 : z == y with
      | true => exact (eq_of_beq h1).symm.trans (eq_of_beq h2)
      | false => rw [h1, h2] at h; simp at h
    | false =>
      cases h2 : z == y with
      | true => rw [h1, h2] at h; simp at h
      | false =>
        rw [h1, h2] at h
        simp only [cond_false, Nat.add_right_cancel_iff] at h
        have hx2 : x ∈ zs := by
          rcases List.mem_cons.mp hx with rfl | hm
          · simp at h1
          · exact hm
        have hy2 : y ∈ zs := by
          rcases List.mem_cons.mp hy with rfl | hm
          · simp at h2
          · exact hm
        exact ih hx2 hy2 h

theorem labelOf_lt {t : FTree} {q : List Nat} (h : q ∈ bfsPaths t) :
    labelOf t q < (bfsPaths t).length :=
  indexOf_lt_len h

theorem labelOf_inj {t : FTree} {q1 q2 : List Nat} (h1 : q1 ∈ bfsPaths t)
    (h2 : q2 ∈ bfsPaths t) (h : labelOf t q1 = labelOf t q2) : q1 = q2 :=
  indexOf_inj2 h1 h2 h

theorem allPosL_child :
    ∀ (cs : List FTree) (j : Nat) (c : FTree), allPosL cs = true → cs[j]? = some c →
      0 < c.blen ∧ allPosT c = true := by
  intro cs
  induction cs with
  | nil => intro j c h hj; simp at hj
  | cons c0 cs ih =>
    intro j c h hj
    rw [allPosL] at h
    simp only [Bool.and_eq_true] at h
    obtain ⟨⟨h1, h2⟩, h3⟩ := h
    cases j with
    | zero =>
      simp only [List.getElem?_cons_zero, Option.some.injEq] at hj
      subst hj
      exact ⟨by simpa using h1, h2⟩
    | succ jj =>
      simp only [List.getElem?_cons_succ] at hj
      exact ih jj c h3 hj

theorem allPosT_child {t : FTree} {j : Nat} {c : FTree} (h : allPosT t = true)
    (hj : t.children[j]? = some c) : 0 < c.blen ∧ allPosT c = true := by
  cases t with
  | mk l e b cs =>
    rw [allPosT] at h
    exact allPosL_child cs j c h (by simpa [FTree.children] using hj)

theorem rootDist_nonneg :
    ∀ (q : List Nat) (t : FTree), allPosT t = true → 0 ≤ rootDist t q := by
  intro q
  induction q with
  | nil => intro t h; rw [rootDist]
  | cons j q2 ih =>
    intro t h
    rw [rootDist]
    cases hj : t.children[j]? with
    | none => simp
    | some c =>
      obtain ⟨hb, hc⟩ := allPosT_child h hj
      simp only
      have := ih c hc
      positivity

theorem rootDist_pos {t : FTree} {q : List Nat} (hpos : allPosT t = true)
    (hval : (subtreeAt t q).isSome = true) (hne : q ≠ []) : 0 < rootDist t q := by
  cases q with
  | nil => exact absurd rfl hne
  | cons j q2 =>
    obtain ⟨c, hj, hval2⟩ := subtreeAt_cons_isSome.mp hval
    obtain ⟨hb, hc⟩ := allPosT_child hpos hj
    rw [rootDist, hj]
    have := rootDist_nonneg q2 c hc
    positivity

theorem upChain_takeWhile {t : FTree} {L : List Nat} (hpos : allPosT t = true)
    (hval : (subtreeAt t L).isSome = true) :
    (upChain L).takeWhile (fun q => decide (0 < rootDist t q))
      = (List.range' 1 (L.length - 1)).reverse.map (fun k => L.take k) := by
  rw [upChain]
  cases hn : L.length with
  | zero => simp
  | succ m =>
    have hrange : List.range (m + 1) = 0 :: List.range' 1 m := by
      rw [List.range_eq_range', List.range'_succ]
    rw [hrange, List.reverse_cons, List.map_append]
    rw [List.takeWhile_append_of_pos]
    · have hlast : List.takeWhile (fun q => decide (0 < rootDist t q))
          (List.map (fun k => L.take k) [0]) = [] := by
        simp [List.takeWhile, rootDist]
      rw [hlast, List.append_nil]
      simp [hn]
    · intro a ha
      simp only [List.mem_map, List.mem_reverse, List.mem_range'] at ha
      obtain ⟨k, ⟨i, hi, hk⟩, rfl⟩ := ha
      have hk1 : 1 ≤ k := by omega
      have hkm : k ≤ m := by omega
      have hvalk : (subtreeAt t (L.take k)).isSome = true := subtreeAt_take hval k
      have hnek : L.take k ≠ [] := by
        have : (L.take k).length = min k L.length := List.length_take k L
        intro hcon
        rw [hcon] at this
        simp only [List.length_nil] at this
        omega
      simpa using rootDist_pos hpos hvalk hnek

theorem countP_eq_range' :
    ∀ (m s c : Nat), ((List.range' s m).countP (fun k => decide (k = c)))
      = if s ≤ c ∧ c < s + m then 1 else 0 := by
  intro m
  induction m with
  | zero =>
    intro s c
    rw [show List.range' s 0 = [] from rfl, List.countP_nil, if_neg (by omega)]
  | succ m2 ih =>
    intro s c
    rw [List.range'_succ, List.countP_cons, ih (s + 1) c]
    by_cases h1 : s = c
    · subst h1
      have hp : (decide (s = s)) = true := by simp
      rw [hp, if_pos rfl, if_neg (by omega), if_pos (by omega)]
    · have hp : (decide (s = c)) = false := by simp [h1]
      rw [hp]
      simp only [Bool.false_eq_true, if_false, Nat.add_zero]
      by_cases h2 : s + 1 ≤ c ∧ c < s + 1 + m2
      · rw [if_pos h2, if_pos (by omega)]
      · rw [if_neg h2, if_neg (by omega)]

theorem leafPathsList_mem_struct :
    ∀ (cs : List FTree) (p : List Nat) (i : Nat)
      (hIH : ∀ x ∈ cs, ∀ (p' q' : List Nat), q' ∈ leafPathsAux p' x →
        ∃ r, q' = p' ++ r ∧ (subtreeAt x r).isSome = true)
      (q : List Nat), q ∈ leafPathsList p i cs →
      ∃ j x r, cs[j]? = some x ∧ q = p ++ [i + j] ++ r ∧ (subtreeAt x r).isSome = true := by
  intro cs
  induction cs with
  | nil => intro p i hIH q hq; simp [leafPathsList] at hq
  | cons x xs ihl =>
    intro p i hIH q hq
    rw [leafPathsList] at hq
    rcases List.mem_append.mp hq with h1 | h2
    · obtain ⟨r, rfl, hval⟩ := hIH x (by simp) (p ++ [i]) q h1
      exact ⟨0, x, r, by simp, by simp, hval⟩
    · obtain ⟨j, y, r, hj, heq, hval⟩ := ihl p (i + 1) (fun z hz => hIH z (by simp [hz])) q h2
      refine ⟨j + 1, y, r, by simpa using hj, ?_, hval⟩
      rw [heq, show i + (j + 1) = i + 1 + j from by omega]

theorem leafPathsAux_valid :
    ∀ (t : FTree) (p q : List Nat), q ∈ leafPathsAux p t →
      ∃ r, q = p ++ r ∧ (subtreeAt t r).isSome = true := by
  intro t
  induction t using FTree.recAux with
  | mk l e b c ih =>
    intro p q hq
    cases c with
    | nil =>
      rw [leafPathsAux] at hq
      simp only [List.mem_singleton] at hq
      subst hq
      exact ⟨[], by simp, by simp [subtreeAt]⟩
    | cons c0 cs =>
      rw [leafPathsAux] at hq
      obtain ⟨j, x, r, hj, heq, hval⟩ :=
        leafPathsList_mem_struct (c0 :: cs) p 0 (fun z hz => ih z hz) q hq
      refine ⟨[0 + j] ++ r, by simpa using heq, ?_⟩
      rw [show ([0 + j] ++ r : List Nat) = (0 + j) :: r from rfl]
      exact subtreeAt_cons_isSome.mpr ⟨x, by simpa [FTree.children] using hj, hval⟩

theorem leafPaths_valid {t : FTree} {L : List Nat} (h : L ∈ leafPaths t) :
    (subtreeAt t L).isSome = true := by
  obtain ⟨r, hr, hval⟩ := leafPathsAux_valid t [] L h
  simpa [hr] using hval

/-! ### The accumulated edge dictionary -/

theorem lookup_edgedictAdd (d : List (Nat × Nat)) (k k' v : Nat) :
    (edgedictAdd d k v).lookup k'
      = if k' = k then (d.lookup k').map (· + v) else d.lookup k' := by
  have hmap := lookup_map_addAt d k k' (fun y => y + v)
  simp only at hmap
  rw [edgedictAdd]
  exact hmap

theorem sumVals_cons (k : Nat) (pr : Nat × Nat) (rest : List (Nat × Nat)) :
    sumVals k (pr :: rest) = (if pr.1 = k then pr.2 else 0) + sumVals k rest := by
  rw [sumVals, sumVals, List.filter_cons]
  by_cases h : pr.1 = k
  · simp [h]
  · simp [h]

theorem lookup_foldl_edgedict :
    ∀ (prs : List (Nat × Nat)) (d : List (Nat × Nat)) (k : Nat),
      ((prs.foldl (fun d2 pr => edgedictAdd d2 pr.1 pr.2) d).lookup k)
        = (d.lookup k).map (· + sumVals k prs) := by
  intro prs
  induction prs with
  | nil =>
    intro d k
    simp only [List.foldl_nil, sumVals, List.filter_nil, List.map_nil, List.sum_nil]
    cases d.lookup k <;> simp
  | cons pr rest ih =>
    intro d k
    rw [List.foldl_cons, ih, lookup_edgedictAdd, sumVals_cons]
    by_cases hk : k = pr.1
    · rw [if_pos hk, if_pos hk.symm]
      cases d.lookup k with
      | none => simp
      | some y => simp; omega
    · rw [if_neg hk, if_neg (fun e => hk e.symm)]
      simp

theorem lookup_rangeInit :
    ∀ (n k : Nat), (((List.range n).map (fun i => (i, (0 : Nat)))).lookup k)
      = if k < n then some 0 else none := by
  intro n
  induction n with
  | zero => intro k; simp
  | succ n ih =>
    intro k
    rw [List.range_succ, List.map_append, List.lookup_append, ih]
    by_cases h1 : k < n
    · rw [if_pos h1, if_pos (by omega)]
      rfl
    · rw [if_neg h1]
      by_cases h2 : k = n
      · subst h2
        simp [lookup_cons_eq, Nat.lt_succ_self]
      · rw [if_neg (by omega)]
        simp [lookup_cons_eq, h2]

theorem annotTrunk_eq_sumVals {t : FTree} {q : List Nat} (hq : q ∈ bfsPaths t) :
    annotTrunk t q = some (sumVals (labelOf t q) (edgelist t)) := by
  rw [annotTrunk, edgedict, lookup_foldl_edgedict, edgedictInit, lookup_rangeInit,
    if_pos (labelOf_lt hq)]
  simp

theorem sumVals_append (k : Nat) (xs ys : List (Nat × Nat)) :
    sumVals k (xs ++ ys) = sumVals k xs + sumVals k ys := by
  simp [sumVals, List.filter_append]

theorem sumVals_flatMap (k : Nat) (l : List (List Nat)) (f : List Nat → List (Nat × Nat)) :
    sumVals k (l.flatMap f) = (l.map (fun x => sumVals k (f x))).sum := by
  induction l with
  | nil => simp [sumVals]
  | cons x xs ih => simp only [List.flatMap_cons, sumVals_append, ih, List.map_cons,
      List.sum_cons]

theorem sumVals_label_map (t : FTree) (lab : Nat) :
    ∀ lst : List (List Nat),
      sumVals lab (lst.map (fun q2 => (labelOf t q2, 1)))
        = lst.countP (fun q2 => decide (labelOf t q2 = lab)) := by
  intro lst
  induction lst with
  | nil => simp [sumVals]
  | cons q2 rest ih =>
    rw [List.map_cons, sumVals_cons, List.countP_cons, ih]
    by_cases h : labelOf t q2 = lab
    · simp [h, Nat.add_comm]
    · simp [h]

theorem sumVals_climb {t : FTree} {L q : List Nat} (hpos : allPosT t = true)
    (hL : (subtreeAt t L).isSome = true) (hq : (subtreeAt t q).isSome = true) :
    sumVals (labelOf t q) (climb t L)
      = if q <+: L ∧ q ≠ L ∧ q ≠ [] then 1 else 0 := by
  rw [climb, sumVals_label_map, upChain_takeWhile hpos hL, List.countP_map,
    List.countP_reverse]
  by_cases hcond : q <+: L ∧ q ≠ L ∧ q ≠ []
  · rw [if_pos hcond]
    obtain ⟨hpre, hneL, hne0⟩ := hcond
    have hqlen : q.length < L.length := by
      have hle := hpre.length_le
      rcases Nat.lt_or_ge q.length L.length with h | h
      · exact h
      · exact absurd (hpre.eq_of_length (by omega)) hneL
    have hq1 : 1 ≤ q.length := by
      cases q with
      | nil => exact absurd rfl hne0
      | cons a as => simp
    have hcongr : ∀ k ∈ List.range' 1 (L.length - 1),
        (((fun q2 => decide (labelOf t q2 = labelOf t q)) ∘ (fun k2 => L.take k2)) k
          ↔ (fun k2 => decide (k2 = q.length)) k) := by
      intro k hk
      obtain ⟨i, hi, hk2⟩ := List.mem_range'.mp hk
      have hk1 : 1 ≤ k := by omega
      have hkn : k < L.length := by omega
      simp only [Function.comp, decide_eq_true_eq]
      constructor
      · intro hlabel
        have heq : L.take k = q :=
          labelOf_inj (bfsPaths_mem_of_valid (subtreeAt_take hL k))
            (bfsPaths_mem_of_valid hq) hlabel
        have hlen := List.length_take k L
        rw [heq] at hlen
        omega
      · intro hke
        subst hke
        rw [← List.prefix_iff_eq_take.mp hpre]
    rw [List.countP_congr hcongr, countP_eq_range', if_pos ⟨by omega, by omega⟩]
  · rw [if_neg hcond, List.countP_eq_zero]
    intro k hk
    obtain ⟨i, hi, hk2⟩ := List.mem_range'.mp hk
    have hk1 : 1 ≤ k := by omega
    have hkn : k < L.length := by omega
    simp only [Function.comp, decide_eq_true_eq]
    intro hlabel
    have heq : L.take k = q :=
      labelOf_inj (bfsPaths_mem_of_valid (subtreeAt_take hL k))
        (bfsPaths_mem_of_valid hq) hlabel
    apply hcond
    refine ⟨by rw [← heq]; exact List.take_prefix k L, ?_, ?_⟩
    · intro hql
      have hlen := List.length_take k L
      rw [heq, hql] at hlen
      omega
    · intro hq0
      have hlen := List.length_take k L
      rw [heq, hq0] at hlen
      simp only [List.length_nil] at hlen
      omega

theorem sum_map_ite_countP {α : Type} (l : List α) (P : α → Prop) [DecidablePred P] :
    ((l.map (fun x => if P x then 1 else 0)).sum : Nat) = l.countP (fun x => decide (P x)) := by
  induction l with
  | nil => simp
  | cons x xs ih =>
    rw [List.map_cons, List.sum_cons, List.countP_cons, ih]
    by_cases h : P x
    · simp [h, Nat.add_comm]
    · simp [h]

theorem valsSum_cons2 (x : Nat × Nat) (l : List (Nat × Nat)) :
    valsSum (x :: l) = x.2 + valsSum l := by
  simp [valsSum]

theorem keyCount_cons (x : Nat × Nat) (l : List (Nat × Nat)) (k : Nat) :
    keyCount (x :: l) k = (if x.1 = k then 1 else 0) + keyCount l k := by
  rw [keyCount, List.countP_cons, keyCount]
  by_cases h : x.1 = k
  · simp [h, Nat.add_comm]
  · simp [h]

theorem edgedictAdd_cons (x : Nat × Nat) (l : List (Nat × Nat)) (k v : Nat) :
    edgedictAdd (x :: l) k v
      = (if x.1 = k then (x.1, x.2 + v) else x) :: edgedictAdd l k v := by
  simp [edgedictAdd]

theorem valsSum_edgedictAdd (d : List (Nat × Nat)) (k v : Nat) :
    valsSum (edgedictAdd d k v) = valsSum d + keyCount d k * v := by
  induction d with
  | nil => simp [valsSum, edgedictAdd, keyCount]
  | cons x l ih =>
    rw [edgedictAdd_cons, valsSum_cons2, valsSum_cons2, keyCount_cons, ih]
    by_cases h : x.1 = k
    · rw [if_pos h, if_pos h]
      dsimp only
      ring
    · rw [if_neg h, if_neg h]
      ring

theorem keyCount_edgedictAdd (d : List (Nat × Nat)) (k k' v : Nat) :
    keyCount (edgedictAdd d k v) k' = keyCount d k' := by
  induction d with
  | nil => simp [keyCount, edgedictAdd]
  | cons x l ih =>
    rw [edgedictAdd_cons, keyCount_cons, keyCount_cons, ih]
    by_cases h : x.1 = k
    · rw [if_pos h]
    · rw [if_neg h]

theorem valsSum_foldl :
    ∀ (prs : List (Nat × Nat)) (d : List (Nat × Nat)),
      (∀ pr ∈ prs, keyCount d pr.1 = 1 ∧ pr.2 = 1) →
      valsSum (prs.foldl (fun d2 pr => edgedictAdd d2 pr.1 pr.2) d) = valsSum d + prs.length := by
  intro prs
  induction prs with
  | nil => intro d hall; simp
  | cons pr rest ih =>
    intro d hall
    rw [List.foldl_cons]
    have h1 := hall pr (by simp)
    rw [ih (edgedictAdd d pr.1 pr.2) (fun pr2 hpr2 => by
      rw [keyCount_edgedictAdd]
      exact hall pr2 (by simp [hpr2]))]
    rw [valsSum_edgedictAdd, h1.1, h1.2]
    simp only [List.length_cons]
    omega

theorem valsSum_init (t : FTree) : valsSum (edgedictInit t) = 0 := by
  rw [valsSum, edgedictInit, List.map_map]
  have : ∀ x ∈ ((List.range (bfsPaths t).length).map
      ((fun kv : Nat × Nat => kv.2) ∘ fun i => (i, 0))), x = 0 := by
    intro x hx
    obtain ⟨i, hi, rfl⟩ := List.mem_map.mp hx
    rfl
  exact List.sum_eq_zero this

theorem keyCount_init {t : FTree} {k : Nat} (hk : k < (bfsPaths t).length) :
    keyCount (edgedictInit t) k = 1 := by
  rw [keyCount, edgedictInit, List.countP_map]
  have hcongr : ∀ i ∈ List.range (bfsPaths t).length,
      (((fun kv : Nat × Nat => decide (kv.1 = k)) ∘ fun i => (i, 0)) i
        ↔ (fun i => decide (i = k)) i) := by
    intro i hi
    simp [Function.comp]
  rw [List.countP_congr hcongr, List.range_eq_range', countP_eq_range',
    if_pos ⟨by omega, by omega⟩]

theorem climb_emitted {t : FTree} {pr : Nat × Nat} (hpr : pr ∈ edgelist t) :
    ∃ q2, (subtreeAt t q2).isSome = true ∧ q2 ≠ [] ∧ pr = (labelOf t q2, 1) := by
  rw [edgelist] at hpr
  obtain ⟨L, hL, hcl⟩ := List.mem_flatMap.mp hpr
  rw [climb] at hcl
  obtain ⟨q2, hq2, rfl⟩ := List.mem_map.mp hcl
  have hpred := List.mem_takeWhile_imp hq2
  have hup : q2 ∈ upChain L := (List.takeWhile_prefix _).subset hq2
  rw [upChain] at hup
  obtain ⟨k, hk, rfl⟩ := List.mem_map.mp hup
  have hvalL := leafPaths_valid hL
  refine ⟨L.take k, subtreeAt_take hvalL k, ?_, rfl⟩
  intro h0
  rw [h0] at hpred
  simp only [rootDist, decide_eq_true_eq] at hpred
  exact lt_irrefl 0 hpred

theorem length_flatMap_sum {α β : Type} (l : List α) (f : α → List β) :
    (l.flatMap f).length = (l.map (fun x => (f x).length)).sum := by
  induction l with
  | nil => simp
  | cons x xs ih => simp [List.flatMap_cons, ih]

theorem climb_length {t : FTree} {L : List Nat} (hpos : allPosT t = true)
    (hL : (subtreeAt t L).isSome = true) :
    (climb t L).length = L.length - 1 := by
  rw [climb, List.length_map, upChain_takeWhile hpos hL]
  simp

/-! ### Claim theorems for the trunk counter -/

/-- C1 amended: for a tree with strictly positive branch lengths, the
trunk annotation of the edge into the node at (valid, non-root) path `q`
equals the number of leaves STRICTLY below that node — the leaves whose
backward walk from their parent to the root crosses the edge. The edge
into a leaf itself is never counted, because the walk starts at the
leaf's parent. -/
theorem trunk_annot_counts_leaves_strictly_below (t : FTree) (q : List Nat)
    (hpos : allPosT t = true) (hq : (subtreeAt t q).isSome = true) (hne : q ≠ []) :
    annotTrunk t q = some (leavesStrictlyBelow t q) := by
  rw [annotTrunk_eq_sumVals (bfsPaths_mem_of_valid hq), edgelist, sumVals_flatMap]
  congr 1
  have hmap : ∀ L ∈ leafPaths t, sumVals (labelOf t q) (climb t L)
      = if q <+: L ∧ q ≠ L then 1 else 0 := by
    intro L hL
    rw [sumVals_climb hpos (leafPaths_valid hL) hq]
    by_cases h : q <+: L ∧ q ≠ L
    · rw [if_pos ⟨h.1, h.2, hne⟩, if_pos h]
    · rw [if_neg (fun hc => h ⟨hc.1, hc.2.1⟩), if_neg h]
  rw [List.map_congr_left hmap, leavesStrictlyBelow]
  exact sum_map_ite_countP _ _

/-- Witness for the amended C1 on the balanced 4-leaf tree at the first
internal edge. -/
theorem trunk_annot_counts_leaves_strictly_below_witness :
    allPosT tBal4 = true ∧ (subtreeAt tBal4 [0]).isSome = true ∧
    annotTrunk tBal4 [0] = some (leavesStrictlyBelow tBal4 [0]) :=
  ⟨by decide, by decide,
   trunk_annot_counts_leaves_strictly_below tBal4 [0] (by decide) (by decide) (by decide)⟩

/-- C1 counterexample: on the balanced 4-leaf tree the edge into leaf `A`
(path `[0,0]`) is annotated 0, yet exactly one leaf's leaf-to-root path
includes that edge (leaf `A` itself), so the claimed equality fails. -/
theorem trunk_annot_leaf_edge_cex :
    annotTrunk tBal4 [0, 0] = some 0 ∧ leavesWithEdgeOnPath tBal4 [0, 0] = 1 ∧
    annotTrunk tBal4 [0, 0] ≠ some (leavesWithEdgeOnPath tBal4 [0, 0]) := by
  have h1 : annotTrunk tBal4 [0, 0] = some 0 := by
    norm_num [annotTrunk, edgedict, edgedictInit, edgedictAdd, edgelist, climb, upChain,
      rootDist, labelOf, leafPaths, leafPathsAux, leafPathsList, tBal4, leafF, bfsPaths,
      bfsAux, childEntries, FTree.children, FTree.blen, List.takeWhile, List.indexOf,
      List.findIdx, List.findIdx.go, List.range, List.range.loop, List.lookup]
    all_goals decide
  have h2 : leavesWithEdgeOnPath tBal4 [0, 0] = 1 := by decide
  exact ⟨h1, h2, by rw [h1, h2]; decide⟩

/-- C2 amended: on the balanced tree `((A:1,B:1):1,(C:1,D:1):1);` the
four leaf edges and the root's edge get trunk count 0, but the two
internal edges each get trunk count 2 (each is crossed by the backward
walks of the two leaves below it), not 0 as the scenario claims. -/
theorem trunk_balanced4_counts :
    annotTrunk tBal4 [] = some 0 ∧ annotTrunk tBal4 [0] = some 2 ∧
    annotTrunk tBal4 [1] = some 2 ∧ annotTrunk tBal4 [0, 0] = some 0 ∧
    annotTrunk tBal4 [0, 1] = some 0 ∧ annotTrunk tBal4 [1, 0] = some 0 ∧
    annotTrunk tBal4 [1, 1] = some 0 := by
  norm_num [annotTrunk, edgedict, edgedictInit, edgedictAdd, edgelist, climb, upChain,
    rootDist, labelOf, leafPaths, leafPathsAux, leafPathsList, tBal4, leafF, bfsPaths,
    bfsAux, childEntries, FTree.children, FTree.blen, List.takeWhile, List.indexOf,
    List.findIdx, List.findIdx.go, List.range, List.range.loop, List.lookup]
  all_goals decide

/-- C2 counterexample: the internal edge into the `(A,B)` clade is
annotated 2, not 0 as the scenario's all-zero prediction states. -/
theorem trunk_balanced4_internal_edge_cex :
    annotTrunk tBal4 [0] ≠ some 0 ∧ annotTrunk tBal4 [0] = some 2 := by
  have h1 : annotTrunk tBal4 [0] = some 2 := by
    norm_num [annotTrunk, edgedict, edgedictInit, edgedictAdd, edgelist, climb, upChain,
      rootDist, labelOf, leafPaths, leafPathsAux, leafPathsList, tBal4, leafF, bfsPaths,
      bfsAux, childEntries, FTree.children, FTree.blen, List.takeWhile, List.indexOf,
      List.findIdx, List.findIdx.go, List.range, List.range.loop, List.lookup]
    all_goals decide
  exact ⟨by rw [h1]; decide, h1⟩

/-- C3 amended: for a tree with strictly positive branch lengths, every
edge crossed by at least one backward walk (an edge into a non-root node
that has a leaf strictly below it) gets trunk count at least 1; the
root's edge, however, IS present in the count map — dendropy gives the
root an edge, the labelling loop initialises its entry — with value 0. -/
theorem trunk_count_crossed_edges (t : FTree) (q : List Nat) (hpos : allPosT t = true)
    (hne : q ≠ []) (hex : ∃ L ∈ leafPaths t, q <+: L ∧ q ≠ L) :
    (∃ n, 1 ≤ n ∧ annotTrunk t q = some n) ∧ annotTrunk t [] = some 0 := by
  obtain ⟨L, hL, hpre, hneL⟩ := hex
  have hvalL := leafPaths_valid hL
  have hq : (subtreeAt t q).isSome = true := by
    rw [List.prefix_iff_eq_take.mp hpre]
    exact subtreeAt_take hvalL _
  have hq0 : ([] : List Nat) ∈ bfsPaths t := bfsPaths_mem_of_valid (by simp [subtreeAt])
  constructor
  · refine ⟨leavesStrictlyBelow t q, ?_,
      trunk_annot_counts_leaves_strictly_below t q hpos hq hne⟩
    rw [leavesStrictlyBelow]
    have hpos2 : 0 < (leafPaths t).countP (fun L2 => decide (q <+: L2 ∧ q ≠ L2)) :=
      List.countP_pos_iff.mpr ⟨L, hL, by simp [hpre, hneL]⟩
    omega
  · rw [annotTrunk_eq_sumVals hq0]
    have hz : sumVals (labelOf t []) (edgelist t) = 0 := by
      rw [sumVals]
      have hfilter : (edgelist t).filter (fun pr => decide (pr.1 = labelOf t [])) = [] := by
        rw [List.filter_eq_nil_iff]
        intro pr hpr
        obtain ⟨q2, hval2, hne2, rfl⟩ := climb_emitted hpr
        simp only [decide_eq_true_eq]
        intro hlab
        exact hne2 (labelOf_inj (bfsPaths_mem_of_valid hval2) hq0 hlab)
      rw [hfilter]
      rfl
    rw [hz]

/-- Witness for the amended C3 on the balanced 4-leaf tree. -/
theorem trunk_count_crossed_edges_witness :
    allPosT tBal4 = true ∧
    ((∃ n, 1 ≤ n ∧ annotTrunk tBal4 [0] = some n) ∧ annotTrunk tBal4 [] = some 0) :=
  ⟨by decide,
   trunk_count_crossed_edges tBal4 [0] (by decide) (by decide)
     ⟨[0, 0], by decide, by decide, by decide⟩⟩

/-- C3 counterexample: on the two-leaf tree `(A:1,B:1);` the leaf edge
`[0]` lies on leaf `A`'s leaf-to-root path yet is annotated 0 (violating
the claimed lower bound of 1), and the root's edge label — assigned by
the same level-order loop — is a key of the count map, with value 0
(violating the claimed absence). -/
theorem trunk_cherry_cex :
    [0] ∈ leafPaths tCherry ∧ annotTrunk tCherry [0] = some 0 ∧
    (edgedict tCherry).lookup (labelOf tCherry []) = some 0 := by
  refine ⟨by decide, ?_, ?_⟩
  · norm_num [annotTrunk, edgedict, edgedictInit, edgedictAdd, edgelist, climb, upChain,
      rootDist, labelOf, leafPaths, leafPathsAux, leafPathsList, tCherry, leafF, bfsPaths,
      bfsAux, childEntries, FTree.children, FTree.blen, List.takeWhile, List.indexOf,
      List.findIdx, List.findIdx.go, List.range, List.range.loop, List.lookup]
    all_goals decide
  · norm_num [edgedict, edgedictInit, edgedictAdd, edgelist, climb, upChain,
      rootDist, labelOf, leafPaths, leafPathsAux, leafPathsList, tCherry, leafF, bfsPaths,
      bfsAux, childEntries, FTree.children, FTree.blen, List.takeWhile, List.indexOf,
      List.findIdx, List.findIdx.go, List.range, List.range.loop, List.lookup]

/-- C4 amended: for a tree with strictly positive branch lengths whose
root is not a leaf (the counter dereferences each leaf's parent), the
trunk counts summed over all edges equal the sum over all leaves of the
edge-count distance from the leaf's parent to the root. -/
theorem trunk_sum_eq_sum_parent_depths (t : FTree) (hpos : allPosT t = true)
    (hroot : t.children ≠ []) :
    sumTrunk t = sumParentDepth t := by
  have hall : ∀ pr ∈ edgelist t, keyCount (edgedictInit t) pr.1 = 1 ∧ pr.2 = 1 := by
    intro pr hpr
    obtain ⟨q2, hval2, hne2, rfl⟩ := climb_emitted hpr
    exact ⟨keyCount_init (labelOf_lt (bfsPaths_mem_of_valid hval2)), rfl⟩
  rw [show sumTrunk t = valsSum (edgedict t) from rfl, edgedict,
    valsSum_foldl _ _ hall, valsSum_init, edgelist, length_flatMap_sum,
    Nat.zero_add, sumParentDepth]
  congr 1
  apply List.map_congr_left
  intro L hL
  exact climb_length hpos (leafPaths_valid hL)

/-- Witness for the amended C4 on the balanced 4-leaf tree
(2 + 2 + 0 + 0 + 0 + 0 + 0 = 1 + 1 + 1 + 1). -/
theorem trunk_sum_eq_sum_parent_depths_witness :
    allPosT tBal4 = true ∧ sumTrunk tBal4 = sumParentDepth tBal4 :=
  ⟨by decide,
   trunk_sum_eq_sum_parent_depths tBal4 (by decide) (by simp [tBal4, FTree.children])⟩

/-- C4 counterexample: with a zero-length internal edge the backward
walks stop early (root distance hits 0 below the root), so the summed
trunk counts (0) undershoot the summed parent depths (2): the claimed
equality fails for trees that are allowed non-positive branch lengths. -/
theorem trunk_sum_zero_length_cex :
    sumTrunk tZero ≠ sumParentDepth tZero ∧ sumTrunk tZero = 0 ∧
    sumParentDepth tZero = 2 := by
  have h1 : sumTrunk tZero = 0 := by
    norm_num [sumTrunk, edgedict, edgedictInit, edgedictAdd, edgelist, climb, upChain,
      rootDist, labelOf, leafPaths, leafPathsAux, leafPathsList, tZero, leafF, bfsPaths,
      bfsAux, childEntries, FTree.children, FTree.blen, List.takeWhile, List.indexOf,
      List.findIdx, List.findIdx.go, List.range, List.range.loop, List.lookup]
  have h2 : sumParentDepth tZero = 2 := by decide
  exact ⟨by rw [h1, h2]; decide, h1, h2⟩

/-! ### Identifier assignment is deterministic and idempotent -/

theorem childEntries_relabelNodesList (f : List Nat → Nat) (p : List Nat) :
    ∀ (cs : List FTree) (i : Nat),
      childEntries p i (relabelNodesList f p i cs)
        = (childEntries p i cs).map (fun en => (en.1, relabelNodesAux f en.1 en.2)) := by
  intro cs
  induction cs with
  | nil => intro i; rfl
  | cons c cs ih =>
    intro i
    rw [relabelNodesList, childEntries, childEntries, List.map_cons, ih (i + 1)]

theorem childEntries_relabelEdgesList (f : List Nat → Nat) (p : List Nat) :
    ∀ (cs : List FTree) (i : Nat),
      childEntries p i (relabelEdgesList f p i cs)
        = (childEntries p i cs).map (fun en => (en.1, relabelEdgesAux f en.1 en.2)) := by
  intro cs
  induction cs with
  | nil => intro i; rfl
  | cons c cs ih =>
    intro i
    rw [relabelEdgesList, childEntries, childEntries, List.map_cons, ih (i + 1)]

theorem bfsAux_relabelNodes (f : List Nat → Nat) :
    ∀ Q, bfsAux (Q.map (fun en => (en.1, relabelNodesAux f en.1 en.2))) = bfsAux Q := by
  intro Q
  induction Q using bfsAux.induct with
  | case1 => rfl
  | case2 p t rest ih =>
    rw [List.map_cons]
    cases t with
    | mk l e b c =>
      simp only [FTree.children] at ih
      rw [bfsAux, bfsAux]
      simp only [relabelNodesAux, FTree.children]
      rw [childEntries_relabelNodesList, ← List.map_append, ih]

theorem bfsAux_relabelEdges (f : List Nat → Nat) :
    ∀ Q, bfsAux (Q.map (fun en => (en.1, relabelEdgesAux f en.1 en.2))) = bfsAux Q := by
  intro Q
  induction Q using bfsAux.induct with
  | case1 => rfl
  | case2 p t rest ih =>
    rw [List.map_cons]
    cases t with
    | mk l e b c =>
      simp only [FTree.children] at ih
      rw [bfsAux, bfsAux]
      simp only [relabelEdgesAux, FTree.children]
      rw [childEntries_relabelEdgesList, ← List.map_append, ih]

theorem labelOf_relabelNodes (f : List Nat → Nat) (t : FTree) :
    labelOf (relabelNodesAux f [] t) = labelOf t := by
  funext q
  have h := bfsAux_relabelNodes f [([], t)]
  simp only [List.map_cons, List.map_nil] at h
  rw [labelOf, labelOf, bfsPaths, bfsPaths, h]

theorem labelOf_relabelEdges (f : List Nat → Nat) (t : FTree) :
    labelOf (relabelEdgesAux f [] t) = labelOf t := by
  funext q
  have h := bfsAux_relabelEdges f [([], t)]
  simp only [List.map_cons, List.map_nil] at h
  rw [labelOf, labelOf, bfsPaths, bfsPaths, h]

theorem relabelNodesList_override (f g : List Nat → Nat) (p : List Nat) :
    ∀ (cs : List FTree) (i : Nat),
      (∀ x ∈ cs, ∀ p', relabelNodesAux f p' (relabelNodesAux g p' x) = relabelNodesAux f p' x) →
      relabelNodesList f p i (relabelNodesList g p i cs) = relabelNodesList f p i cs := by
  intro cs
  induction cs with
  | nil => intro i hIH; rfl
  | cons c cs ih =>
    intro i hIH
    simp only [relabelNodesList]
    rw [hIH c (by simp) (p ++ [i]), ih (i + 1) (fun x hx => hIH x (by simp [hx]))]

theorem relabelNodes_override (f g : List Nat → Nat) :
    ∀ (t : FTree) (p : List Nat),
      relabelNodesAux f p (relabelNodesAux g p t) = relabelNodesAux f p t := by
  intro t
  induction t using FTree.recAux with
  | mk l e b c ih =>
    intro p
    simp only [relabelNodesAux]
    rw [relabelNodesList_override f g p c 0 (fun x hx p' => ih x hx p')]

theorem relabelEdgesList_override (f g : List Nat → Nat) (p : List Nat) :
    ∀ (cs : List FTree) (i : Nat),
      (∀ x ∈ cs, ∀ p', relabelEdgesAux f p' (relabelEdgesAux g p' x) = relabelEdgesAux f p' x) →
      relabelEdgesList f p i (relabelEdgesList g p i cs) = relabelEdgesList f p i cs := by
  intro cs
  induction cs with
  | nil => intro i hIH; rfl
  | cons c cs ih =>
    intro i hIH
    simp only [relabelEdgesList]
    rw [hIH c (by simp) (p ++ [i]), ih (i + 1) (fun x hx => hIH x (by simp [hx]))]

theorem relabelEdges_override (f g : List Nat → Nat) :
    ∀ (t : FTree) (p : List Nat),
      relabelEdgesAux f p (relabelEdgesAux g p t) = relabelEdgesAux f p t := by
  intro t
  induction t using FTree.recAux with
  | mk l e b c ih =>
    intro p
    simp only [relabelEdgesAux]
    rw [relabelEdgesList_override f g p c 0 (fun x hx p' => ih x hx p')]

theorem relabelList_commute (f g : List Nat → Nat) (p : List Nat) :
    ∀ (cs : List FTree) (i : Nat),
      (∀ x ∈ cs, ∀ p', relabelNodesAux g p' (relabelEdgesAux f p' x)
        = relabelEdgesAux f p' (relabelNodesAux g p' x)) →
      relabelNodesList g p i (relabelEdgesList f p i cs)
        = relabelEdgesList f p i (relabelNodesList g p i cs) := by
  intro cs
  induction cs with
  | nil => intro i hIH; rfl
  | cons c cs ih =>
    intro i hIH
    simp only [relabelNodesList, relabelEdgesList]
    rw [hIH c (by simp) (p ++ [i]), ih (i + 1) (fun x hx => hIH x (by simp [hx]))]

theorem relabel_commute (f g : List Nat → Nat) :
    ∀ (t : FTree) (p : List Nat),
      relabelNodesAux g p (relabelEdgesAux f p t)
        = relabelEdgesAux f p (relabelNodesAux g p t) := by
  intro t
  induction t using FTree.recAux with
  | mk l e b c ih =>
    intro p
    simp only [relabelNodesAux, relabelEdgesAux]
    rw [relabelList_commute f g p c 0 (fun x hx p' => ih x hx p')]

/-- C9: running the identifier-assignment pass (level-order node
labelling followed by level-order edge labelling) twice on the same tree
yields the same tree, hence identical node and edge id assignments: the
pass reads only the tree's shape, never the labels it overwrites. -/
theorem assignIds_idempotent (t : FTree) : assignIds (assignIds t) = assignIds t := by
  rw [assignIds, assignIds, assignNodeIds, assignEdgeIds, assignNodeIds, assignEdgeIds]
  rw [labelOf_relabelNodes]
  rw [labelOf_relabelEdges, labelOf_relabelNodes]
  rw [relabel_commute, relabelNodes_override, relabelEdges_override]
